import Mathlib

/-!
Verification of the streaming decoder and batch pipeline in
src/services/gemini.ts.

The development shallowly embeds:
* the streaming branch of callGeminiApi (lines 28-91): a TextDecoder with
  carry-over of incomplete UTF-8 sequences, a growing raw-text buffer, a
  regex scan for occurrences of the form quote text quote colon spaces
  quoted-string, JSON string-literal unescaping of each capture with
  failures skipped, and the update rule that replaces the accumulated
  text only when the freshly extracted candidate is strictly longer;
* the non-streaming branch (lines 94-99): nested property access on the
  parsed JSON document with a catch-all returning the empty string;
* executeBulkParallel (lines 155-165): Promise.all over tasks with each
  failure caught and mapped to null, nulls filtered from the result, and
  the concurrency argument never consulted;
* the bulk MCQ merge step of fetchLessonContent (lines 585-595):
  flatten, first-occurrence deduplication keyed on the question field,
  and truncation to the requested count.

Strings are modeled as lists of unicode scalar values (List Char), byte
streams as List Nat.
-/

namespace GeminiSpec

/-- Character class of the JavaScript regex escape for whitespace,
used by the pattern between the colon and the opening quote. -/
def jsSpace (c : Char) : Bool :=
  decide ((0x09 ≤ c.toNat ∧ c.toNat ≤ 0x0D) ∨ c.toNat = 0x20 ∨ c.toNat = 0xA0 ∨
    c.toNat = 0x1680 ∨ (0x2000 ≤ c.toNat ∧ c.toNat ≤ 0x200A) ∨ c.toNat = 0x2028 ∨
    c.toNat = 0x2029 ∨ c.toNat = 0x202F ∨ c.toNat = 0x205F ∨ c.toNat = 0x3000 ∨
    c.toNat = 0xFEFF)

/-- Character class of the JavaScript regex dot without the dotAll flag:
any character except the four line terminators.  The escape-pair
alternative of the capture group uses backslash followed by dot. -/
def jsDot (c : Char) : Bool :=
  !(c = '\n' || c = '\r' || c = Char.ofNat 0x2028 || c = Char.ofNat 0x2029)

/-- The seven literal characters the regex must see first:
quote, t, e, x, t, quote, colon. -/
def litText : List Char := ['"', 't', 'e', 'x', 't', '"', ':']

/-- Match the literal part of the regex at the head of the buffer,
returning the remainder. -/
def stripLit : List Char → Option (List Char)
  | '"' :: 't' :: 'e' :: 'x' :: 't' :: '"' :: ':' :: r => some r
  | _ => none

/-- Scan the capture group of the regex: a sequence of alternatives
(either a character that is neither quote nor backslash, or a backslash
followed by any non-line-terminator character), terminated by the
closing quote.  Returns the captured characters and the remainder after
the closing quote; none when the input ends before an unescaped quote or
when a backslash is followed by a line terminator (where the regex dot
fails and no backtracking can recover). -/
def scanStr : List Char → Option (List Char × List Char)
  | [] => none
  | c :: rest =>
    if c = '"' then some ([], rest)
    else if c = '\\' then
      match rest with
      | [] => none
      | d :: rest2 =>
        if jsDot d then (scanStr rest2).map (fun p => (c :: d :: p.1, p.2)) else none
    else (scanStr rest).map (fun p => (c :: p.1, p.2))

/-- Attempt the whole regex at the current position: the literal,
then any run of whitespace, then a quoted capture. -/
def matchAt (s : List Char) : Option (List Char × List Char) :=
  match stripLit s with
  | none => none
  | some r =>
    match r.dropWhile jsSpace with
    | [] => none
    | c :: body => if c = '"' then scanStr body else none

/-- One global pass of the regex over the buffer, fueled for structural
recursion (the fuel only needs to dominate the buffer length): at each
position try the pattern; on success record the capture and resume right
after the consumed match, mirroring lastIndex of a sticky global exec
loop; on failure slide one character forward. -/
def extractAux : Nat → List Char → List (List Char)
  | 0, _ => []
  | fuel + 1, s =>
    match matchAt s with
    | some (cap, rest) => cap :: extractAux fuel rest
    | none =>
      match s with
      | [] => []
      | _ :: tail => extractAux fuel tail

/-- All captures of the global regex scan over the buffer, in order of
appearance. -/
def extractMatches (s : List Char) : List (List Char) :=
  extractAux s.length s

/-- Hexadecimal digit value, as accepted inside a JSON unicode escape. -/
def hexVal (c : Char) : Option Nat :=
  if 48 ≤ c.toNat ∧ c.toNat ≤ 57 then some (c.toNat - 48)
  else if 97 ≤ c.toNat ∧ c.toNat ≤ 102 then some (c.toNat - 87)
  else if 65 ≤ c.toNat ∧ c.toNat ≤ 70 then some (c.toNat - 55)
  else none

/-- Value of a four-digit hexadecimal escape. -/
def hex4 (a b c d : Char) : Option Nat := do
  let va ← hexVal a
  let vb ← hexVal b
  let vc ← hexVal c
  let vd ← hexVal d
  pure (va * 4096 + vb * 256 + vc * 16 + vd)

/-- The single-character JSON escapes. -/
def escChar (c : Char) : Option Char :=
  if c = '"' then some '"'
  else if c = '\\' then some '\\'
  else if c = '/' then some '/'
  else if c = 'b' then some (Char.ofNat 8)
  else if c = 'f' then some (Char.ofNat 12)
  else if c = 'n' then some '\n'
  else if c = 'r' then some '\r'
  else if c = 't' then some '\t'
  else none

/-- First phase of JSON.parse applied to a quoted capture: read the body
of the string literal into UTF-16 code units.  A raw control character,
a stray quote, a dangling backslash or an unknown escape is a parse
error. -/
def unescapeUnits : List Char → Option (List Nat)
  | [] => some []
  | '\\' :: 'u' :: a :: b :: c :: d :: rest =>
    (hex4 a b c d).bind fun n => (unescapeUnits rest).map (fun l => n :: l)
  | '\\' :: [] => none
  | '\\' :: e :: rest =>
    (escChar e).bind fun ec => (unescapeUnits rest).map (fun l => ec.toNat :: l)
  | ch :: rest =>
    if ch = '"' then none
    else if ch.toNat < 0x20 then none
    else (unescapeUnits rest).map (fun l => ch.toNat :: l)

/-- Second phase: combine surrogate pairs into scalar values.  A lone
surrogate, which a JavaScript string could carry but a sequence of
unicode scalar values cannot represent, is treated as a parse failure of
the capture. -/
def unitsToChars : List Nat → Option (List Char)
  | [] => some []
  | n :: rest =>
    if n < 0xD800 ∨ 0xE000 ≤ n then
      (unitsToChars rest).map (fun l => Char.ofNat n :: l)
    else if n < 0xDC00 then
      match rest with
      | [] => none
      | m :: rest2 =>
        if 0xDC00 ≤ m ∧ m < 0xE000 then
          (unitsToChars rest2).map
            (fun l => Char.ofNat (0x10000 + (n - 0xD800) * 0x400 + (m - 0xDC00)) :: l)
        else none
    else none

/-- JSON.parse of the capture re-wrapped in quotes: unescape the body as
a JSON string literal. -/
def unescape (l : List Char) : Option (List Char) :=
  (unescapeUnits l).bind unitsToChars

/-- The extracted text the streaming loop rebuilds from the whole
buffer: every capture is unescaped and appended, and a capture whose
body fails to parse is skipped silently (the empty catch block). -/
def extractText (buffer : List Char) : List Char :=
  ((extractMatches buffer).filterMap unescape).flatten

/-- State of the streaming loop of callGeminiApi: the persistent raw
buffer, the accumulated fullText, and the successive values handed to
the onChunk callback. -/
structure StreamState where
  buffer : List Char
  fullText : List Char
  emissions : List (List Char)
deriving Repr

def streamInit : StreamState := ⟨[], [], []⟩

/-- Processing of one decoded chunk: append it to the buffer, rescan the
whole buffer, and replace the accumulated text (firing onChunk) exactly
when the candidate is strictly longer. -/
def streamStep (st : StreamState) (chunk : List Char) : StreamState :=
  let buffer := st.buffer ++ chunk
  let extracted := extractText buffer
  if extracted.length > st.fullText.length then
    ⟨buffer, extracted, st.emissions ++ [extracted]⟩
  else
    ⟨buffer, st.fullText, st.emissions⟩

/-- The whole streaming loop over a sequence of already-decoded chunks. -/
def runChunks (chunks : List (List Char)) : StreamState :=
  chunks.foldl streamStep streamInit

/-- The value returned at end-of-stream. -/
def streamFinal (chunks : List (List Char)) : List Char :=
  (runChunks chunks).fullText

/-- A scan of the capture group that failed on the current buffer either
failed because the buffer ended mid-string (the buffer decomposes into
escape units, possibly with a dangling backslash) or fails permanently
(a backslash immediately followed by a line terminator defeats the regex
dot, no matter what is appended). -/
inductive ScanUnits : List Char → Prop where
  | nil : ScanUnits []
  | lone : ScanUnits ['\\']
  | chr (c : Char) (l : List Char) : c ≠ '"' → c ≠ '\\' → ScanUnits l → ScanUnits (c :: l)
  | esc (c : Char) (l : List Char) : ScanUnits l → ScanUnits ('\\' :: c :: l)

/-! The emission chain of the onChunk callback -/

/-- Invariant tying the emission list to the current accumulated text:
the emitted lengths are strictly increasing and the accumulated text is
the last emission (or nothing was emitted yet and the accumulated text
is still empty). -/
def EmissionInv (st : StreamState) : Prop :=
  List.Chain' (fun a b : List Char => a.length < b.length) st.emissions ∧
    ((st.emissions = [] ∧ st.fullText = []) ∨ st.emissions.getLast? = some st.fullText)

/-! Well-formed complete streams

A regular JSON array of objects with a text field, in its canonical
serialization without whitespace: the capture bodies are escaped string
contents (no bare quote, no dangling backslash, no backslash before a
line terminator). -/

/-- The body of a string literal as the capture group sees it: a
sequence of escape units. -/
def escapedOk : List Char → Bool
  | [] => true
  | c :: l =>
    if c = '"' then false
    else if c = '\\' then
      match l with
      | [] => false
      | d :: l2 => jsDot d && escapedOk l2
    else escapedOk l

/-- One streamed array element carrying a text field. -/
def textObj (e : List Char) : List Char :=
  '{' :: litText ++ '"' :: e ++ ['"', '}']

/-- Comma-separated elements. -/
def serItems : List (List Char) → List Char
  | [] => []
  | [e] => textObj e
  | e :: es => textObj e ++ ',' :: serItems es

/-- The complete well-formed stream: a JSON array of objects each with
a text field whose value has escaped body e. -/
def serializeStream (es : List (List Char)) : List Char :=
  '[' :: (serItems es ++ [']'])

/-! The TextDecoder layer

The streaming loop decodes each incoming byte chunk with one persistent
TextDecoder in streaming mode, so incomplete multi-byte sequences are
carried over between chunks.  This is modeled with the per-byte UTF-8
decoding state machine of the encoding standard: the accumulated
codepoint with the count of continuation bytes still needed and already
seen, plus the admissible window for the next continuation byte (which
also excludes overlong forms and surrogate codepoints).  Invalid bytes
emit the replacement character; default BOM stripping is modeled by a
small prefix phase; bytes of an incomplete trailing sequence produce no
output, matching a stream that is never flushed with a final decode
call. -/

structure Utf8State where
  codepoint : Nat
  needed : Nat
  seen : Nat
  lower : Nat
  upper : Nat
deriving Repr, DecidableEq

def utf8Init : Utf8State := ⟨0, 0, 0, 0x80, 0xBF⟩

/-- Handling of a byte in the initial decoder state. -/
def utf8Handle1 (b : Nat) : Utf8State × List Char :=
  if b ≤ 0x7F then (utf8Init, [Char.ofNat b])
  else if 0xC2 ≤ b ∧ b ≤ 0xDF then (⟨b % 32, 1, 0, 0x80, 0xBF⟩, [])
  else if 0xE0 ≤ b ∧ b ≤ 0xEF then
    (⟨b % 16, 2, 0, if b = 0xE0 then 0xA0 else 0x80, if b = 0xED then 0x9F else 0xBF⟩, [])
  else if 0xF0 ≤ b ∧ b ≤ 0xF4 then
    (⟨b % 8, 3, 0, if b = 0xF0 then 0x90 else 0x80, if b = 0xF4 then 0x8F else 0xBF⟩, [])
  else (utf8Init, [Char.ofNat 0xFFFD])

/-- One byte of the UTF-8 decoding state machine.  On a continuation
byte outside the admissible window the machine emits a replacement
character and reprocesses the byte from the initial state. -/
def utf8Step (u : Utf8State) (b : Nat) : Utf8State × List Char :=
  if u.needed = 0 then utf8Handle1 b
  else if u.lower ≤ b ∧ b ≤ u.upper then
    let cp := u.codepoint * 64 + b % 64
    if u.seen + 1 = u.needed then (utf8Init, [Char.ofNat cp])
    else (⟨cp, u.needed, u.seen + 1, 0x80, 0xBF⟩, [])
  else
    let p := utf8Handle1 b
    (p.1, Char.ofNat 0xFFFD :: p.2)

def utf8Run : Utf8State → List Nat → Utf8State × List Char
  | u, [] => (u, [])
  | u, b :: rest =>
    let p := utf8Step u b
    let q := utf8Run p.1 rest
    (q.1, p.2 ++ q.2)

/-- How much of a possible leading byte-order mark has been seen. -/
inductive BomPhase where
  | b0 | b1 | b2 | done
deriving Repr, DecidableEq

structure DecoderState where
  bom : BomPhase
  u : Utf8State
deriving Repr, DecidableEq

def decInit : DecoderState := ⟨BomPhase.b0, utf8Init⟩

/-- One byte of the decoder including default BOM stripping: the three
BOM bytes at the very start of the stream are swallowed; on a mismatch
the withheld bytes are replayed through the UTF-8 machine. -/
def decStep (st : DecoderState) (b : Nat) : DecoderState × List Char :=
  match st.bom with
  | BomPhase.done =>
    let p := utf8Step st.u b
    (⟨BomPhase.done, p.1⟩, p.2)
  | BomPhase.b0 =>
    if b = 0xEF then (⟨BomPhase.b1, st.u⟩, [])
    else
      let p := utf8Step st.u b
      (⟨BomPhase.done, p.1⟩, p.2)
  | BomPhase.b1 =>
    if b = 0xBB then (⟨BomPhase.b2, st.u⟩, [])
    else
      let p1 := utf8Step st.u 0xEF
      let p2 := utf8Step p1.1 b
      (⟨BomPhase.done, p2.1⟩, p1.2 ++ p2.2)
  | BomPhase.b2 =>
    if b = 0xBF then (⟨BomPhase.done, st.u⟩, [])
    else
      let p1 := utf8Step st.u 0xEF
      let p2 := utf8Step p1.1 0xBB
      let p3 := utf8Step p2.1 b
      (⟨BomPhase.done, p3.1⟩, p1.2 ++ (p2.2 ++ p3.2))

def decRun : DecoderState → List Nat → DecoderState × List Char
  | st, [] => (st, [])
  | st, b :: rest =>
    let p := decStep st b
    let q := decRun p.1 rest
    (q.1, p.2 ++ q.2)

/-- UTF-8 encoding of one unicode scalar value. -/
def utf8EncodeChar (c : Char) : List Nat :=
  if c.toNat < 0x80 then [c.toNat]
  else if c.toNat < 0x800 then [0xC0 + c.toNat / 64, 0x80 + c.toNat % 64]
  else if c.toNat < 0x10000 then
    [0xE0 + c.toNat / 4096, 0x80 + c.toNat / 64 % 64, 0x80 + c.toNat % 64]
  else
    [0xF0 + c.toNat / 262144, 0x80 + c.toNat / 4096 % 64,
      0x80 + c.toNat / 64 % 64, 0x80 + c.toNat % 64]

def utf8Encode (s : List Char) : List Nat :=
  (s.map utf8EncodeChar).flatten

/-- Removal of a leading byte-order-mark character, which a default
decoder never delivers. -/
def stripBom : List Char → List Char
  | [] => []
  | c :: r => if c = Char.ofNat 0xFEFF then r else c :: r

/-! The byte-level streaming loop of callGeminiApi -/

structure ByteStreamState where
  dec : DecoderState
  text : StreamState
deriving Repr

def byteStreamInit : ByteStreamState := ⟨decInit, streamInit⟩

/-- One iteration of the reader loop: decode the received byte chunk
with the persistent decoder, then feed the decoded text to the
buffer-and-rescan step. -/
def byteStep (st : ByteStreamState) (chunk : List Nat) : ByteStreamState :=
  let p := decRun st.dec chunk
  ⟨p.1, streamStep st.text p.2⟩

def runByteChunks (chunks : List (List Nat)) : ByteStreamState :=
  chunks.foldl byteStep byteStreamInit

/-- The text returned at end-of-stream by the byte-level loop. -/
def byteStreamFinal (chunks : List (List Nat)) : List Char :=
  (runByteChunks chunks).text.fullText

/-! executeBulkParallel

The orchestrator maps every task thunk through a per-task catch that
turns a rejection into null, awaits them all, and filters the nulls
from the result.  A task is modeled by its settled outcome: an error,
or a success carrying a JavaScript value that may itself be null
(Option with none for null).  The concurrency parameter is part of the
signature but never consulted. -/

def executeBulkParallel {α : Type} (tasks : List (Except Unit (Option α)))
    (concurrency : Nat) : List α :=
  ((tasks.map (fun t =>
      match t with
      | Except.ok v => v
      | Except.error _ => none)).filterMap id)

/-! The start/settle trace of the orchestrator

Promise.all over tasks.map invokes every task thunk synchronously
during the map; each thunk suspends at its first await of the network
call, so every task has started (and holds an outstanding request)
before any response can be delivered.  A run is therefore a trace of
all starts in submission order followed by settlements in some
arbitrary order. -/

inductive BulkEvent where
  | start (i : Nat)
  | settle (i : Nat)
deriving Repr, DecidableEq

def isStart : BulkEvent → Bool
  | BulkEvent.start _ => true
  | BulkEvent.settle _ => false

/-- The trace of one executeBulkParallel run with n tasks. -/
def bulkTrace (n : Nat) (settleOrder : List Nat) : List BulkEvent :=
  (List.range n).map BulkEvent.start ++ settleOrder.map BulkEvent.settle

/-- Number of tasks with an outstanding request after a prefix of the
trace. -/
def inFlight (events : List BulkEvent) : Nat :=
  events.countP isStart - events.countP (fun e => !isStart e)

/-- The largest number of simultaneously outstanding requests over the
whole run. -/
def maxInFlight (events : List BulkEvent) : Nat :=
  (List.range (events.length + 1)).foldl (fun m k => max m (inFlight (events.take k))) 0

/-! The bulk MCQ merge of fetchLessonContent

An item of a parsed sub-batch: the dedup key is the question field,
which may be absent (undefined); the payload stands for the rest of
the parsed object. -/

structure MCQ where
  question : Option (List Char)
  payload : Nat
deriving Repr, DecidableEq

/-- The filter with the external seen set: walk the merged list; a
question already in the set drops the item, and every visited key is
added to the set. -/
def dedupStep (seen : List (Option (List Char))) : List MCQ → List MCQ
  | [] => []
  | q :: rest =>
    if q.question ∈ seen then dedupStep (q.question :: seen) rest
    else q :: dedupStep (q.question :: seen) rest

def dedupMCQs (items : List MCQ) : List MCQ := dedupStep [] items

/-- The merge step: flatten the surviving sub-batch results in task
order, deduplicate, and slice down to the requested count when the
deduplicated list is longer. -/
def mergeBulkMCQs (results : List (List MCQ)) (effectiveCount : Nat) : List MCQ :=
  let data := results.flatten
  let deduped := dedupMCQs data
  if deduped.length > effectiveCount then deduped.take effectiveCount else deduped

/-- Reference first-occurrence deduplication, stated the way the spec
describes it: keep the head, then keep of the rest everything whose key
differs from the head. -/
def keepFirst : List MCQ → List MCQ
  | [] => []
  | q :: rest => q :: keepFirst (rest.filter (fun r => r.question ≠ q.question))
termination_by l => l.length
decreasing_by
  have hle := List.length_filter_le (fun r : MCQ => decide ¬(r.question = q.question)) rest
  simp at hle ⊢
  omega

/-! The non-streaming extraction

A model of the JavaScript values the non-streaming branch manipulates:
undefined, null, booleans, numbers, strings, arrays and objects.
Property access on undefined or null throws; on any other non-object it
yields undefined (except the length of strings and arrays); a missing
property of an object yields undefined without throwing. -/

inductive JsVal where
  | undef : JsVal
  | nullv : JsVal
  | bool (b : Bool) : JsVal
  | num (n : Int) : JsVal
  | str (s : List Char) : JsVal
  | arr (elems : List JsVal) : JsVal
  | obj (fields : List (List Char × JsVal)) : JsVal

def keyLength : List Char := "length".toList

def keyCandidates : List Char := "candidates".toList

def keyContent : List Char := "content".toList

def keyParts : List Char := "parts".toList

def keyText : List Char := "text".toList

def lookupField : List (List Char × JsVal) → List Char → JsVal
  | [], _ => JsVal.undef
  | (k, v) :: rest, key => if k = key then v else lookupField rest key

/-- Property access, which throws a TypeError on undefined and null. -/
def jsGet : JsVal → List Char → Except Unit JsVal
  | JsVal.undef, _ => Except.error ()
  | JsVal.nullv, _ => Except.error ()
  | JsVal.obj fields, key => Except.ok (lookupField fields key)
  | JsVal.arr elems, key =>
    if key = keyLength then Except.ok (JsVal.num elems.length) else Except.ok JsVal.undef
  | JsVal.str s, key =>
    if key = keyLength then Except.ok (JsVal.num s.length) else Except.ok JsVal.undef
  | _, _ => Except.ok JsVal.undef

/-- Index access with index 0. -/
def jsIndex0 : JsVal → Except Unit JsVal
  | JsVal.undef => Except.error ()
  | JsVal.nullv => Except.error ()
  | JsVal.arr elems =>
    Except.ok (match elems with | [] => JsVal.undef | v :: _ => v)
  | JsVal.str s =>
    Except.ok (match s with | [] => JsVal.undef | c :: _ => JsVal.str [c])
  | JsVal.obj fields => Except.ok (lookupField fields ['0'])
  | _ => Except.ok JsVal.undef

/-- The property chain data.candidates[0].content.parts[0].text. -/
def candidatePath (data : JsVal) : Except Unit JsVal := do
  let a ← jsGet data keyCandidates
  let b ← jsIndex0 a
  let c ← jsGet b keyContent
  let d ← jsGet c keyParts
  let e ← jsIndex0 d
  jsGet e keyText

/-- The non-streaming branch: evaluate the chain inside a try block and
return the empty string from the catch. -/
def extractCandidateText (data : JsVal) : JsVal :=
  match candidatePath data with
  | Except.ok v => v
  | Except.error _ => JsVal.str []

/-- Whether a settled task fulfilled rather than rejected. -/
def taskOk {α : Type} : Except Unit (Option α) → Bool
  | Except.ok _ => true
  | Except.error _ => false

def c1Demo : List (List Char) := [['H', 'i'], ['!']]

def c2Demo : List (List MCQ) :=
  [[⟨some ['a'], 0⟩, ⟨some ['a'], 1⟩], [⟨some ['b'], 2⟩]]

def c4Demo : List (Except Unit (Option Nat)) :=
  [Except.ok (some 1), Except.error (), Except.ok (some 2)]

def c4DemoAllFail : List (Except Unit (Option Nat)) :=
  [Except.error (), Except.error ()]

def c6chunk1 : List Char := ['[', '{', '"', 't', 'e', 'x', 't', '"', ':', '"', 'H', 'e', 'l']

def c6chunk2 : List Char := ['l', 'o', '"', '}', ']']

def c8Data : JsVal :=
  JsVal.obj [(keyCandidates,
    JsVal.arr [JsVal.obj [(keyContent,
      JsVal.obj [(keyParts, JsVal.arr [JsVal.obj []])])]])]

/-! Equation lemmas for the scanner -/

theorem scanStr_nil : scanStr [] = none := rfl

theorem scanStr_quote (rest : List Char) : scanStr ('"' :: rest) = some ([], rest) := by
  rw [scanStr.eq_def]; simp

theorem scanStr_lone : scanStr ['\\'] = none := by
  rw [scanStr]; simp

theorem scanStr_esc (d : Char) (rest2 : List Char) (hd : jsDot d = true) :
    scanStr ('\\' :: d :: rest2) = (scanStr rest2).map (fun p => ('\\' :: d :: p.1, p.2)) := by
  rw [scanStr]; simp [hd]

theorem scanStr_esc_bad (d : Char) (rest2 : List Char) (hd : jsDot d = false) :
    scanStr ('\\' :: d :: rest2) = none := by
  rw [scanStr]; simp [hd]

theorem scanStr_other (c : Char) (rest : List Char) (h1 : c ≠ '"') (h2 : c ≠ '\\') :
    scanStr (c :: rest) = (scanStr rest).map (fun p => (c :: p.1, p.2)) := by
  rw [scanStr.eq_def]; simp [h1, h2]

theorem scanStr_some_length {b : List Char} {cap r} (h : scanStr b = some (cap, r)) :
    r.length < b.length := by
  induction b using scanStr.induct generalizing cap r with
  | case1 => rw [scanStr_nil] at h; cases h
  | case2 rest => rw [scanStr_quote] at h; cases h; simp
  | case3 hq => rw [scanStr_lone] at h; cases h
  | case4 d rest2 hd hq ih =>
    rw [scanStr_esc d rest2 hd] at h
    cases hsc : scanStr rest2 with
    | none => rw [hsc] at h; cases h
    | some p =>
      rw [hsc] at h
      cases h
      have := ih hsc
      simp; omega
  | case5 d rest2 hd hq =>
    rw [scanStr_esc_bad d rest2 (by simpa using hd)] at h; cases h
  | case6 d rest2 hdq hdb ih =>
    rw [scanStr_other d rest2 hdq hdb] at h
    cases hsc : scanStr rest2 with
    | none => rw [hsc] at h; cases h
    | some p =>
      rw [hsc] at h
      cases h
      have := ih hsc
      simp; omega

/-! Equation and length lemmas for the whole pattern -/

theorem stripLit_eq_some {s r : List Char} :
    stripLit s = some r ↔ s = litText ++ r := by
  constructor
  · intro h
    rw [stripLit.eq_def] at h
    split at h
    · cases h; rfl
    · cases h
  · intro h
    subst h
    rfl

theorem stripLit_head_ne {c : Char} (l : List Char) (h : c ≠ '"') :
    stripLit (c :: l) = none := by
  cases hs : stripLit (c :: l) with
  | none => rfl
  | some r =>
    rw [stripLit_eq_some] at hs
    simp [litText] at hs
    exact absurd hs.1 h

theorem matchAt_nil : matchAt [] = none := rfl

theorem matchAt_none_of_stripLit {s : List Char} (h : stripLit s = none) :
    matchAt s = none := by
  rw [matchAt, h]

theorem matchAt_cons_ne {c : Char} (l : List Char) (h : c ≠ '"') :
    matchAt (c :: l) = none :=
  matchAt_none_of_stripLit (stripLit_head_ne l h)

theorem dropWhile_length_le (p : Char → Bool) (l : List Char) :
    (l.dropWhile p).length ≤ l.length := by
  induction l with
  | nil => simp
  | cons a l ih =>
    rw [List.dropWhile_cons]
    split
    · simp; omega
    · simp

theorem matchAt_some_length {s cap r : List Char} (h : matchAt s = some (cap, r)) :
    r.length < s.length := by
  rw [matchAt] at h
  split at h
  · cases h
  · next rs hst =>
    split at h
    · cases h
    · next c body hdw =>
      split at h
      · rw [stripLit_eq_some] at hst
        have h1 := scanStr_some_length h
        have h2 : body.length < rs.length := by
          have hln := congrArg List.length hdw
          have hle := dropWhile_length_le jsSpace rs
          simp at hln
          omega
        subst hst
        simp [litText]
        omega
      · cases h

/-! Fuel irrelevance and step lemmas for the global scan -/

theorem extractAux_succ {f : Nat} {s : List Char} :
    extractAux (f + 1) s =
      match matchAt s with
      | some (cap, rest) => cap :: extractAux f rest
      | none =>
        match s with
        | [] => []
        | _ :: tail => extractAux f tail := rfl

theorem extractAux_succ_some {f : Nat} {s cap rest : List Char}
    (h : matchAt s = some (cap, rest)) :
    extractAux (f + 1) s = cap :: extractAux f rest := by
  rw [extractAux_succ, h]

theorem extractAux_succ_none {f : Nat} {c : Char} {l : List Char}
    (h : matchAt (c :: l) = none) :
    extractAux (f + 1) (c :: l) = extractAux f l := by
  rw [extractAux_succ, h]

theorem extractAux_nil (f : Nat) : extractAux f [] = [] := by
  cases f <;> rfl

theorem extractAux_congr {f : Nat} :
    ∀ {s : List Char} {g : Nat}, s.length ≤ f → s.length ≤ g →
      extractAux f s = extractAux g s := by
  induction f using Nat.strong_induction_on with
  | _ f ih =>
    intro s g hf hg
    cases s with
    | nil => rw [extractAux_nil, extractAux_nil]
    | cons a l =>
      simp at hf hg
      obtain ⟨f', rfl⟩ : ∃ f', f = f' + 1 := ⟨f - 1, by omega⟩
      obtain ⟨g', rfl⟩ : ∃ g', g = g' + 1 := ⟨g - 1, by omega⟩
      cases hm : matchAt (a :: l) with
      | some p =>
        obtain ⟨cap, rest⟩ := p
        have hr := matchAt_some_length hm
        simp at hr
        have e1 : extractAux f' rest = extractAux g' rest :=
          ih f' (by omega) (by omega) (by omega)
        rw [extractAux_succ_some hm, extractAux_succ_some hm, e1]
      | none =>
        have e1 : extractAux f' l = extractAux g' l :=
          ih f' (by omega) (by omega) (by omega)
        rw [extractAux_succ_none hm, extractAux_succ_none hm, e1]

theorem extract_nil : extractMatches [] = [] := rfl

theorem extract_some {s cap rest : List Char} (h : matchAt s = some (cap, rest)) :
    extractMatches s = cap :: extractMatches rest := by
  have h1 : 1 ≤ s.length := by
    cases s with
    | nil => rw [matchAt_nil] at h; cases h
    | cons a l => simp
  obtain ⟨g, hg⟩ : ∃ g, s.length = g + 1 := ⟨s.length - 1, by omega⟩
  have hr := matchAt_some_length h
  rw [extractMatches, hg, extractAux_succ_some h, extractMatches]
  exact congrArg (cap :: ·) (extractAux_congr (by omega) (le_refl _))

theorem extract_cons_none {c : Char} {l : List Char} (h : matchAt (c :: l) = none) :
    extractMatches (c :: l) = extractMatches l := by
  rw [extractMatches]
  simp only [List.length_cons]
  rw [extractAux_succ_none h]
  rfl

/-! Persistence of a completed match under buffer growth

A match that the scan has fully consumed in some buffer stays a match,
with the same capture, after more text is appended to the buffer. -/

theorem scanStr_append_some {b cap r : List Char} (t : List Char)
    (h : scanStr b = some (cap, r)) : scanStr (b ++ t) = some (cap, r ++ t) := by
  induction b using scanStr.induct generalizing cap r with
  | case1 => rw [scanStr_nil] at h; cases h
  | case2 rest => rw [scanStr_quote] at h; cases h; simp [scanStr_quote]
  | case3 hq => rw [scanStr_lone] at h; cases h
  | case4 d rest2 hd hq ih =>
    rw [scanStr_esc d rest2 hd] at h
    cases hsc : scanStr rest2 with
    | none => rw [hsc] at h; cases h
    | some p =>
      rw [hsc] at h
      cases h
      have := ih hsc
      simp only [List.cons_append]
      rw [scanStr_esc d (rest2 ++ t) hd, this]
      rfl
  | case5 d rest2 hd hq =>
    rw [scanStr_esc_bad d rest2 (by simpa using hd)] at h; cases h
  | case6 d rest2 hdq hdb ih =>
    rw [scanStr_other d rest2 hdq hdb] at h
    cases hsc : scanStr rest2 with
    | none => rw [hsc] at h; cases h
    | some p =>
      rw [hsc] at h
      cases h
      have := ih hsc
      simp only [List.cons_append]
      rw [scanStr_other d (rest2 ++ t) hdq hdb, this]
      rfl

theorem scanStr_none_cases {b : List Char} (h : scanStr b = none) :
    ScanUnits b ∨ ∀ t, scanStr (b ++ t) = none := by
  induction b using scanStr.induct with
  | case1 => exact Or.inl ScanUnits.nil
  | case2 rest => rw [scanStr_quote] at h; cases h
  | case3 hq => exact Or.inl ScanUnits.lone
  | case4 d rest2 hd hq ih =>
    rw [scanStr_esc d rest2 hd] at h
    cases hsc : scanStr rest2 with
    | some p => rw [hsc] at h; cases h
    | none =>
      cases ih hsc with
      | inl hu => exact Or.inl (ScanUnits.esc d rest2 hu)
      | inr hp =>
        refine Or.inr fun t => ?_
        simp only [List.cons_append]
        rw [scanStr_esc d (rest2 ++ t) hd, hp t]
        rfl
  | case5 d rest2 hd hq =>
    refine Or.inr fun t => ?_
    simp only [List.cons_append]
    exact scanStr_esc_bad d (rest2 ++ t) (by simpa using hd)
  | case6 d rest2 hdq hdb ih =>
    rw [scanStr_other d rest2 hdq hdb] at h
    cases hsc : scanStr rest2 with
    | some p => rw [hsc] at h; cases h
    | none =>
      cases ih hsc with
      | inl hu => exact Or.inl (ScanUnits.chr d rest2 hdq hdb hu)
      | inr hp =>
        refine Or.inr fun t => ?_
        simp only [List.cons_append]
        rw [scanStr_other d (rest2 ++ t) hdq hdb, hp t]
        rfl

theorem su_not_quote {l : List Char} (h : ScanUnits ('"' :: l)) : False := by
  cases h with
  | chr _ _ hq _ _ => exact hq rfl

theorem su_tail {c : Char} {l : List Char} (h : ScanUnits (c :: l))
    (hq : c ≠ '"') (hb : c ≠ '\\') : ScanUnits l := by
  cases h with
  | lone => exact absurd rfl hb
  | chr _ _ _ _ hu => exact hu
  | esc _ _ _ => exact absurd rfl hb

theorem su_texts {w : List Char} (h : ScanUnits ('t' :: 'e' :: 'x' :: 't' :: '"' :: w)) :
    False := by
  have h1 := su_tail h (by decide) (by decide)
  have h2 := su_tail h1 (by decide) (by decide)
  have h3 := su_tail h2 (by decide) (by decide)
  have h4 := su_tail h3 (by decide) (by decide)
  exact su_not_quote h4

theorem matchAt_none_of_shape {v : List Char} (h : ∀ w, v ≠ litText ++ w) :
    matchAt v = none := by
  apply matchAt_none_of_stripLit
  cases hs : stripLit v with
  | none => rfl
  | some r =>
    rw [stripLit_eq_some] at hs
    exact absurd hs (h r)

/-- No occurrence of the full pattern can complete inside a region the
capture scanner has already consumed to the end of the buffer: the
pattern needs an unescaped quote followed by the letters t e x t and
another unescaped quote, which the unit decomposition forbids. -/
theorem extract_units {u : List Char} (h : ScanUnits u) : extractMatches u = [] := by
  induction h with
  | nil => exact extract_nil
  | lone =>
    rw [extract_cons_none (matchAt_cons_ne [] (by decide))]
    exact extract_nil
  | chr c l hq hb hu ih =>
    rw [extract_cons_none (matchAt_cons_ne l hq)]
    exact ih
  | esc c l hu ih =>
    rw [extract_cons_none (matchAt_cons_ne (c :: l) (by decide))]
    by_cases hq : c = '"'
    · subst hq
      have hnone : matchAt ('"' :: l) = none := by
        apply matchAt_none_of_shape
        intro w hw
        simp [litText] at hw
        obtain ⟨rfl, -⟩ := hw
        exact su_texts (by simpa using hu)
      rw [extract_cons_none hnone]
      exact ih
    · rw [extract_cons_none (matchAt_cons_ne l hq)]
      exact ih

theorem dropWhile_append_cons {p : Char → Bool} {l cb : List Char} {c : Char}
    (h : l.dropWhile p = c :: cb) (t : List Char) :
    (l ++ t).dropWhile p = c :: (cb ++ t) := by
  induction l with
  | nil => simp at h
  | cons a l ih =>
    rw [List.dropWhile_cons] at h
    rw [List.cons_append, List.dropWhile_cons]
    split at h
    · next hp => rw [if_pos hp]; exact ih h
    · next hp => rw [if_neg hp]; cases h; rfl

theorem dropWhile_append_nil {p : Char → Bool} {l : List Char}
    (h : l.dropWhile p = []) (t : List Char) :
    (l ++ t).dropWhile p = t.dropWhile p := by
  induction l with
  | nil => simp
  | cons a l ih =>
    rw [List.dropWhile_cons] at h
    rw [List.cons_append, List.dropWhile_cons]
    split at h
    · next hp => rw [if_pos hp]; exact ih h
    · cases h

theorem matchAt_lit (r : List Char) :
    matchAt (litText ++ r) =
      match r.dropWhile jsSpace with
      | [] => none
      | c :: body => if c = '"' then scanStr body else none := rfl

theorem matchAt_lit_quote {r body : List Char} (h : r.dropWhile jsSpace = '"' :: body) :
    matchAt (litText ++ r) = scanStr body := by
  rw [matchAt_lit, h]
  simp

theorem matchAt_lit_nil {r : List Char} (h : r.dropWhile jsSpace = []) :
    matchAt (litText ++ r) = none := by
  rw [matchAt_lit, h]

theorem matchAt_lit_other {r body : List Char} {c : Char}
    (h : r.dropWhile jsSpace = c :: body) (hc : c ≠ '"') :
    matchAt (litText ++ r) = none := by
  rw [matchAt_lit, h]
  exact if_neg hc

theorem matchAt_append_some {s cap r : List Char} (t : List Char)
    (h : matchAt s = some (cap, r)) : matchAt (s ++ t) = some (cap, r ++ t) := by
  rw [matchAt] at h
  split at h
  · cases h
  · next rs hst =>
    split at h
    · cases h
    · next c body hdw =>
      split at h
      · next hc =>
        subst hc
        rw [stripLit_eq_some] at hst
        subst hst
        rw [List.append_assoc,
          matchAt_lit_quote (dropWhile_append_cons hdw t)]
        exact scanStr_append_some t h
      · cases h

/-- A character of the whitespace class is not a quote. -/
theorem jsSpace_ne_quote {c : Char} (h : jsSpace c = true) : c ≠ '"' := by
  intro hc
  subst hc
  exact absurd h (by decide)

theorem extract_spaces_append {sp : List Char} (hsp : ∀ c ∈ sp, jsSpace c = true)
    (z : List Char) : extractMatches (sp ++ z) = extractMatches z := by
  induction sp with
  | nil => rfl
  | cons a l ih =>
    rw [List.cons_append,
      extract_cons_none (matchAt_cons_ne (l ++ z) (jsSpace_ne_quote (hsp a (by simp)))),
      ih (fun c hc => hsp c (by simp [hc]))]

theorem extract_lit_none {r : List Char} (h : matchAt (litText ++ r) = none) :
    extractMatches (litText ++ r) = extractMatches r := by
  have e0 : litText ++ r = '"' :: 't' :: 'e' :: 'x' :: 't' :: '"' :: ':' :: r := rfl
  rw [e0] at h
  rw [e0, extract_cons_none h,
    extract_cons_none (matchAt_cons_ne _ (by decide)),
    extract_cons_none (matchAt_cons_ne _ (by decide)),
    extract_cons_none (matchAt_cons_ne _ (by decide)),
    extract_cons_none (matchAt_cons_ne _ (by decide))]
  have hq : matchAt ('"' :: ':' :: r) = none := by
    apply matchAt_none_of_shape
    intro w hw
    simp [litText] at hw
  rw [extract_cons_none hq, extract_cons_none (matchAt_cons_ne _ (by decide))]

/-- Minimal length of a completed match: the literal, the opening quote
and at least a closing quote. -/
theorem matchAt_some_min {s : List Char} {p : List Char × List Char}
    (h : matchAt s = some p) : 9 ≤ s.length := by
  rw [matchAt] at h
  split at h
  · cases h
  · next rs hst =>
    split at h
    · cases h
    · next c body hdw =>
      split at h
      · rw [stripLit_eq_some] at hst
        subst hst
        have hb : body ≠ [] := by
          intro hb
          subst hb
          rw [scanStr_nil] at h
          cases h
        have h2 : 1 + body.length ≤ rs.length := by
          have hln := congrArg List.length hdw
          have hle := dropWhile_length_le jsSpace rs
          simp at hln
          omega
        have h3 : 1 ≤ body.length := by
          cases body with
          | nil => exact absurd rfl hb
          | cons x xs => simp
        simp [litText]
        omega
      · cases h

theorem extract_short {s : List Char} (h : s.length ≤ 8) : extractMatches s = [] := by
  induction s with
  | nil => exact extract_nil
  | cons a l ih =>
    have hl : l.length + 1 ≤ 8 := by simpa using h
    have hm : matchAt (a :: l) = none := by
      cases hm : matchAt (a :: l) with
      | none => rfl
      | some p =>
        have h9 := matchAt_some_min hm
        simp at h9
        omega
    rw [extract_cons_none hm]
    exact ih (by omega)

/-- The crux of buffer-growth monotonicity: when the pattern fails on
the current buffer but succeeds once more text arrives, the current
buffer holds no completed match at all.  The failed attempt must have
run off the end of the buffer, and the region it consumed cannot
conceal a completed occurrence of the pattern. -/
theorem extract_none_of_late_match {s t : List Char} {p : List Char × List Char}
    (h1 : matchAt s = none) (h2 : matchAt (s ++ t) = some p) :
    extractMatches s = [] := by
  by_cases hs8 : s.length ≤ 8
  · exact extract_short hs8
  have h9 : 9 ≤ s.length := by omega
  obtain ⟨rall, hrall⟩ : ∃ r, stripLit (s ++ t) = some r := by
    cases hx : stripLit (s ++ t) with
    | none =>
      rw [matchAt_none_of_stripLit hx] at h2
      cases h2
    | some r => exact ⟨r, rfl⟩
  rw [stripLit_eq_some] at hrall
  have hs7 : s = litText ++ s.drop 7 := by
    have h70 : (s ++ t).take 7 = litText := by
      rw [hrall]
      simp [litText]
    have h7 : s.take 7 = litText := by
      rw [← h70, List.take_append_of_le_length (by omega)]
    calc s = s.take 7 ++ s.drop 7 := by rw [List.take_append_drop]
      _ = litText ++ s.drop 7 := by rw [h7]
  set s1 := s.drop 7 with hs1def
  have hst : s ++ t = litText ++ (s1 ++ t) := by
    rw [hs7]
    simp [List.append_assoc]
  rw [hst] at h2
  rw [hs7] at h1
  rw [hs7]
  cases hdw : s1.dropWhile jsSpace with
  | nil =>
    rw [extract_lit_none h1]
    have hsw : s1.takeWhile jsSpace = s1 := by
      have haux := List.takeWhile_append_dropWhile (p := jsSpace) (l := s1)
      rw [hdw] at haux
      simpa using haux
    have hall : ∀ c ∈ s1, jsSpace c = true := by
      intro c hc
      rw [← hsw] at hc
      exact List.mem_takeWhile_imp hc
    have hsp := extract_spaces_append hall []
    simpa using hsp
  | cons c0 body1 =>
    -- the appended buffer matches, so the head after the spaces is a
    -- quote and the capture scan of the extended body succeeds
    have hdw2 : (s1 ++ t).dropWhile jsSpace = c0 :: (body1 ++ t) :=
      dropWhile_append_cons hdw t
    have hc0 : c0 = '"' := by
      by_contra hc
      rw [matchAt_lit_other hdw2 hc] at h2
      cases h2
    subst hc0
    have hscan2 : scanStr (body1 ++ t) = some p := by
      rw [matchAt_lit_quote hdw2] at h2
      exact h2
    have hscan1 : scanStr body1 = none := by
      rw [matchAt_lit_quote hdw] at h1
      exact h1
    have hunits : ScanUnits body1 := by
      cases scanStr_none_cases hscan1 with
      | inl hu => exact hu
      | inr hp =>
        rw [hp t] at hscan2
        cases hscan2
    -- decompose the region before the quote into whitespace
    have hsplit : s1 = s1.takeWhile jsSpace ++ '"' :: body1 := by
      have haux := List.takeWhile_append_dropWhile (p := jsSpace) (l := s1)
      rw [hdw] at haux
      exact haux.symm
    have hall : ∀ c ∈ s1.takeWhile jsSpace, jsSpace c = true :=
      fun c hc => List.mem_takeWhile_imp hc
    rw [extract_lit_none (by rw [matchAt_lit_quote hdw]; exact hscan1), hsplit,
      extract_spaces_append hall]
    have hnq : matchAt ('"' :: body1) = none := by
      apply matchAt_none_of_shape
      intro w hw
      simp [litText] at hw
      obtain ⟨rfl, -⟩ := hw
      exact su_texts (by simpa using hunits)
    rw [extract_cons_none hnq]
    exact extract_units hunits

theorem extract_append_aux (n : Nat) :
    ∀ s t : List Char, s.length ≤ n →
      ∃ d, extractMatches (s ++ t) = extractMatches s ++ d := by
  induction n using Nat.strong_induction_on with
  | _ n ih =>
    intro s t hn
    cases hm : matchAt s with
    | some p =>
      obtain ⟨cap, rest⟩ := p
      have hm2 := matchAt_append_some t hm
      have hrl := matchAt_some_length hm
      obtain ⟨d, hd⟩ := ih rest.length (by omega) rest t (le_refl _)
      exact ⟨d, by rw [extract_some hm2, extract_some hm, hd, List.cons_append]⟩
    | none =>
      cases hm2 : matchAt (s ++ t) with
      | some p =>
        refine ⟨extractMatches (s ++ t), ?_⟩
        rw [extract_none_of_late_match hm hm2]
        rfl
      | none =>
        cases s with
        | nil => exact ⟨extractMatches t, by rw [extract_nil]; rfl⟩
        | cons a l =>
          have hm2' : matchAt (a :: (l ++ t)) = none := by
            simpa using hm2
          have hln : l.length + 1 ≤ n := by simpa using hn
          obtain ⟨d, hd⟩ := ih l.length (by omega) l t (le_refl _)
          refine ⟨d, ?_⟩
          rw [List.cons_append, extract_cons_none hm2', extract_cons_none hm, hd]

/-- Growth monotonicity of the global scan: every capture found in a
buffer is still found, in the same order and followed by possibly more
captures, after the buffer grows. -/
theorem extract_append (s t : List Char) :
    ∃ d, extractMatches (s ++ t) = extractMatches s ++ d :=
  extract_append_aux s.length s t (le_refl _)

/-- Growth monotonicity carries over to the rebuilt text. -/
theorem extractText_append (s t : List Char) :
    ∃ d, extractText (s ++ t) = extractText s ++ d := by
  obtain ⟨d, hd⟩ := extract_append s t
  refine ⟨(d.filterMap unescape).flatten, ?_⟩
  rw [extractText, extractText, hd, List.filterMap_append, List.flatten_append]

/-! Invariants of the streaming loop -/

theorem streamStep_buffer (st : StreamState) (chunk : List Char) :
    (streamStep st chunk).buffer = st.buffer ++ chunk := by
  rw [streamStep]
  split <;> rfl

theorem streamStep_fullText (st : StreamState) (chunk : List Char)
    (h : st.fullText = extractText st.buffer) :
    (streamStep st chunk).fullText = extractText (st.buffer ++ chunk) := by
  rw [streamStep]
  split
  · rfl
  · next hlen =>
    obtain ⟨d, hd⟩ := extractText_append st.buffer chunk
    rw [hd] at hlen ⊢
    simp at hlen
    have hd0 : d.length = 0 := by
      rw [h] at hlen
      omega
    have : d = [] := List.eq_nil_of_length_eq_zero hd0
    subst this
    simpa using h

theorem runChunks_aux (cs : List (List Char)) :
    ∀ st : StreamState, st.fullText = extractText st.buffer →
      (cs.foldl streamStep st).buffer = st.buffer ++ cs.flatten ∧
      (cs.foldl streamStep st).fullText = extractText (st.buffer ++ cs.flatten) := by
  induction cs with
  | nil => intro st h; constructor <;> simp [h]
  | cons c cs ih =>
    intro st h
    rw [List.foldl_cons]
    have h1 := streamStep_buffer st c
    have h2 := streamStep_fullText st c h
    obtain ⟨hb, hf⟩ := ih (streamStep st c) (by rw [h2, h1])
    constructor
    · rw [hb, h1]
      simp [List.append_assoc]
    · rw [hf, h1]
      simp [List.append_assoc]

/-- The final accumulated text of one streaming run is a function of
the concatenation of the decoded chunks alone: it is what a single scan
of the completed buffer extracts. -/
theorem streamFinal_eq_extract (cs : List (List Char)) :
    streamFinal cs = extractText cs.flatten := by
  have h := (runChunks_aux cs streamInit rfl).2
  rw [streamFinal, runChunks]
  simpa using h

theorem streamStep_emissionInv (st : StreamState) (chunk : List Char)
    (h : EmissionInv st) : EmissionInv (streamStep st chunk) := by
  obtain ⟨hchain, hlast⟩ := h
  rw [streamStep]
  split
  · next hlen =>
    refine ⟨?_, Or.inr (by simp)⟩
    show List.Chain' _ (st.emissions ++ [extractText (st.buffer ++ chunk)])
    apply List.Chain'.append hchain (by simp)
    intro x hx y hy
    simp at hy
    subst hy
    cases hlast with
    | inl hl =>
      rw [hl.1] at hx
      cases hx
    | inr hl =>
      rw [hl] at hx
      simp at hx
      subst hx
      simpa using hlen
  · exact ⟨hchain, hlast⟩

theorem foldl_emissionInv (cs : List (List Char)) :
    ∀ st : StreamState, EmissionInv st → EmissionInv (cs.foldl streamStep st) := by
  induction cs with
  | nil => intro st h; exact h
  | cons c cs ih =>
    intro st h
    rw [List.foldl_cons]
    exact ih _ (streamStep_emissionInv st c h)

theorem streamInit_emissionInv : EmissionInv streamInit := by
  unfold EmissionInv
  exact ⟨List.chain'_nil, Or.inl ⟨rfl, rfl⟩⟩

theorem runChunks_emissionInv (cs : List (List Char)) :
    EmissionInv (runChunks cs) :=
  foldl_emissionInv cs streamInit streamInit_emissionInv

theorem escapedOk_nil : escapedOk [] = true := rfl

theorem escapedOk_quote (l : List Char) : escapedOk ('"' :: l) = false := by
  rw [escapedOk.eq_def]; simp

theorem escapedOk_lone : escapedOk ['\\'] = false := by
  rw [escapedOk.eq_def]; simp

theorem escapedOk_esc (d : Char) (l2 : List Char) :
    escapedOk ('\\' :: d :: l2) = (jsDot d && escapedOk l2) := by
  rw [escapedOk.eq_def]; simp

theorem escapedOk_chr (c : Char) (l : List Char) (h1 : c ≠ '"') (h2 : c ≠ '\\') :
    escapedOk (c :: l) = escapedOk l := by
  rw [escapedOk.eq_def]; simp [h1, h2]

theorem scanStr_escaped {e : List Char} (he : escapedOk e = true) (r : List Char) :
    scanStr (e ++ '"' :: r) = some (e, r) := by
  induction e using escapedOk.induct with
  | case1 => exact scanStr_quote r
  | case2 l => rw [escapedOk_quote] at he; cases he
  | case3 hq => rw [escapedOk_lone] at he; cases he
  | case4 d l2 hq ih =>
    rw [escapedOk_esc] at he
    simp at he
    obtain ⟨hd, hok⟩ := he
    rw [List.cons_append, List.cons_append, scanStr_esc d _ hd, ih hok]
    rfl
  | case5 c l hq hb ih =>
    rw [escapedOk_chr c l hq hb] at he
    rw [List.cons_append, scanStr_other c _ hq hb, ih he]
    rfl

theorem extract_textObj {e : List Char} (he : escapedOk e = true) (r : List Char) :
    extractMatches (textObj e ++ r) = e :: extractMatches r := by
  have hshape : textObj e ++ r = '{' :: (litText ++ ('"' :: (e ++ '"' :: '}' :: r))) := by
    rw [textObj]
    simp
  rw [hshape, extract_cons_none (matchAt_cons_ne _ (by decide))]
  have hdw : ('"' :: (e ++ '"' :: '}' :: r)).dropWhile jsSpace =
      '"' :: (e ++ '"' :: '}' :: r) := by
    rw [List.dropWhile_cons, if_neg (by decide)]
  have hm : matchAt (litText ++ ('"' :: (e ++ '"' :: '}' :: r))) = some (e, '}' :: r) := by
    rw [matchAt_lit_quote hdw]
    exact scanStr_escaped he ('}' :: r)
  rw [extract_some hm, extract_cons_none (matchAt_cons_ne _ (by decide))]

theorem extract_serItems {es : List (List Char)} (hok : ∀ e ∈ es, escapedOk e = true) :
    extractMatches (serItems es ++ [']']) = es := by
  induction es with
  | nil =>
    rw [serItems]
    simp only [List.nil_append]
    rw [extract_cons_none (matchAt_cons_ne _ (by decide))]
    exact extract_nil
  | cons e es ih =>
    cases es with
    | nil =>
      show extractMatches (textObj e ++ [']']) = [e]
      rw [extract_textObj (hok e (by simp)) _,
        extract_cons_none (matchAt_cons_ne [] (by decide))]
      rfl
    | cons e2 es2 =>
      have hshape : serItems (e :: e2 :: es2) ++ [']'] =
          textObj e ++ (',' :: (serItems (e2 :: es2) ++ [']'])) := by
        show (textObj e ++ ',' :: serItems (e2 :: es2)) ++ [']'] = _
        simp
      rw [hshape, extract_textObj (hok e (by simp)) _,
        extract_cons_none (matchAt_cons_ne (serItems (e2 :: es2) ++ [']']) (by decide)),
        ih (fun x hx => hok x (by simp [hx]))]

/-- The global scan over a canonical well-formed stream finds exactly
the escaped text values, in document order. -/
theorem extract_serialize {es : List (List Char)} (hok : ∀ e ∈ es, escapedOk e = true) :
    extractMatches (serializeStream es) = es := by
  have h1 : matchAt ('[' :: (serItems es ++ [']'])) = none :=
    matchAt_cons_ne (serItems es ++ [']']) (by decide)
  rw [serializeStream, extract_cons_none h1]
  exact extract_serItems hok

/-! Equation lemmas for the UTF-8 machine -/

theorem char_toNat_valid (c : Char) :
    c.toNat < 0xD800 ∨ (0xDFFF < c.toNat ∧ c.toNat < 0x110000) := c.valid

theorem utf8Run_nil (u : Utf8State) : utf8Run u [] = (u, []) := rfl

theorem utf8Run_cons (u : Utf8State) (b : Nat) (rest : List Nat) :
    utf8Run u (b :: rest) =
      ((utf8Run (utf8Step u b).1 rest).1,
        (utf8Step u b).2 ++ (utf8Run (utf8Step u b).1 rest).2) := rfl

theorem utf8Run_append (u : Utf8State) (a b : List Nat) :
    utf8Run u (a ++ b) =
      ((utf8Run (utf8Run u a).1 b).1,
        (utf8Run u a).2 ++ (utf8Run (utf8Run u a).1 b).2) := by
  induction a generalizing u with
  | nil => rw [utf8Run_nil]; simp
  | cons x a ih =>
    rw [List.cons_append, utf8Run_cons, ih, utf8Run_cons]
    simp [List.append_assoc]

theorem utf8Step_init (b : Nat) : utf8Step utf8Init b = utf8Handle1 b := by
  rw [utf8Step]
  simp [utf8Init]

theorem utf8Handle1_ascii {b : Nat} (h : b ≤ 0x7F) :
    utf8Handle1 b = (utf8Init, [Char.ofNat b]) := by
  rw [utf8Handle1, if_pos h]

theorem utf8Handle1_two {b : Nat} (h : 0xC2 ≤ b ∧ b ≤ 0xDF) :
    utf8Handle1 b = (⟨b % 32, 1, 0, 0x80, 0xBF⟩, []) := by
  rw [utf8Handle1, if_neg (by omega), if_pos h]

theorem utf8Handle1_three {b : Nat} (h : 0xE0 ≤ b ∧ b ≤ 0xEF) :
    utf8Handle1 b = (⟨b % 16, 2, 0, if b = 0xE0 then 0xA0 else 0x80,
      if b = 0xED then 0x9F else 0xBF⟩, []) := by
  rw [utf8Handle1, if_neg (by omega), if_neg (by omega), if_pos h]

theorem utf8Handle1_four {b : Nat} (h : 0xF0 ≤ b ∧ b ≤ 0xF4) :
    utf8Handle1 b = (⟨b % 8, 3, 0, if b = 0xF0 then 0x90 else 0x80,
      if b = 0xF4 then 0x8F else 0xBF⟩, []) := by
  rw [utf8Handle1, if_neg (by omega), if_neg (by omega), if_neg (by omega), if_pos h]

theorem utf8Step_mid {cp n s lo up b : Nat} (hn : n ≠ 0) (hb : lo ≤ b ∧ b ≤ up)
    (hs : s + 1 ≠ n) :
    utf8Step ⟨cp, n, s, lo, up⟩ b = (⟨cp * 64 + b % 64, n, s + 1, 0x80, 0xBF⟩, []) := by
  rw [utf8Step, if_neg hn, if_pos hb, if_neg hs]

theorem utf8Step_last {cp n s lo up b : Nat} (hn : n ≠ 0) (hb : lo ≤ b ∧ b ≤ up)
    (hs : s + 1 = n) :
    utf8Step ⟨cp, n, s, lo, up⟩ b = (utf8Init, [Char.ofNat (cp * 64 + b % 64)]) := by
  rw [utf8Step, if_neg hn, if_pos hb, if_pos hs]

/-- Decoding undoes the encoding of a single scalar value, returning
the machine to its initial state. -/
theorem utf8Run_encodeChar (c : Char) :
    utf8Run utf8Init (utf8EncodeChar c) = (utf8Init, [c]) := by
  have hv := char_toNat_valid c
  have hofn := Char.ofNat_toNat c
  rw [utf8EncodeChar]
  by_cases h1 : c.toNat < 0x80
  · rw [if_pos h1, utf8Run_cons, utf8Step_init, utf8Handle1_ascii (by omega)]
    rw [utf8Run_nil]
    simp [hofn]
  · rw [if_neg h1]
    by_cases h2 : c.toNat < 0x800
    · rw [if_pos h2, utf8Run_cons, utf8Step_init, utf8Handle1_two ⟨by omega, by omega⟩,
        utf8Run_cons, utf8Step_last (by omega) ⟨by omega, by omega⟩ rfl, utf8Run_nil]
      simp only [List.nil_append, List.append_nil]
      rw [show (0xC0 + c.toNat / 64) % 32 * 64 + (0x80 + c.toNat % 64) % 64 = c.toNat by
        omega, hofn]
    · rw [if_neg h2]
      by_cases h3 : c.toNat < 0x10000
      · rw [if_pos h3, utf8Run_cons, utf8Step_init, utf8Handle1_three ⟨by omega, by omega⟩]
        have hlo : (if 0xE0 + c.toNat / 4096 = 0xE0 then 0xA0 else 0x80) ≤
            0x80 + c.toNat / 64 % 64 := by
          by_cases hE : 0xE0 + c.toNat / 4096 = 0xE0
          · rw [if_pos hE]; omega
          · rw [if_neg hE]; omega
        have hup : 0x80 + c.toNat / 64 % 64 ≤
            (if 0xE0 + c.toNat / 4096 = 0xED then 0x9F else 0xBF) := by
          by_cases hE : 0xE0 + c.toNat / 4096 = 0xED
          · rw [if_pos hE]; omega
          · rw [if_neg hE]; omega
        rw [utf8Run_cons, utf8Step_mid (by omega) ⟨hlo, hup⟩ (by omega),
          utf8Run_cons, utf8Step_last (by omega) ⟨by omega, by omega⟩ rfl, utf8Run_nil]
        simp only [List.nil_append, List.append_nil]
        rw [show ((0xE0 + c.toNat / 4096) % 16 * 64 + (0x80 + c.toNat / 64 % 64) % 64) * 64 +
            (0x80 + c.toNat % 64) % 64 = c.toNat by omega, hofn]
      · rw [if_neg h3, utf8Run_cons, utf8Step_init, utf8Handle1_four ⟨by omega, by omega⟩]
        have hlo : (if 0xF0 + c.toNat / 262144 = 0xF0 then 0x90 else 0x80) ≤
            0x80 + c.toNat / 4096 % 64 := by
          by_cases hE : 0xF0 + c.toNat / 262144 = 0xF0
          · rw [if_pos hE]; omega
          · rw [if_neg hE]; omega
        have hup : 0x80 + c.toNat / 4096 % 64 ≤
            (if 0xF0 + c.toNat / 262144 = 0xF4 then 0x8F else 0xBF) := by
          by_cases hE : 0xF0 + c.toNat / 262144 = 0xF4
          · rw [if_pos hE]; omega
          · rw [if_neg hE]; omega
        rw [utf8Run_cons, utf8Step_mid (by omega) ⟨hlo, hup⟩ (by omega),
          utf8Run_cons, utf8Step_mid (by omega) ⟨by omega, by omega⟩ (by omega),
          utf8Run_cons, utf8Step_last (by omega) ⟨by omega, by omega⟩ rfl, utf8Run_nil]
        simp only [List.nil_append, List.append_nil]
        rw [show (((0xF0 + c.toNat / 262144) % 8 * 64 + (0x80 + c.toNat / 4096 % 64) % 64) *
            64 + (0x80 + c.toNat / 64 % 64) % 64) * 64 + (0x80 + c.toNat % 64) % 64 =
            c.toNat by omega, hofn]

/-- Decoding undoes the encoding of a whole string. -/
theorem utf8Run_encode (s : List Char) :
    utf8Run utf8Init (utf8Encode s) = (utf8Init, s) := by
  induction s with
  | nil => rfl
  | cons c r ih =>
    have hsplit : utf8Encode (c :: r) = utf8EncodeChar c ++ utf8Encode r := by
      rw [utf8Encode, List.map_cons, List.flatten_cons]
      rfl
    rw [hsplit, utf8Run_append, utf8Run_encodeChar, ih]
    rfl

/-! The decoder with BOM stripping agrees with the plain machine -/

theorem decRun_nil (st : DecoderState) : decRun st [] = (st, []) := rfl

theorem decRun_cons (st : DecoderState) (b : Nat) (rest : List Nat) :
    decRun st (b :: rest) =
      ((decRun (decStep st b).1 rest).1,
        (decStep st b).2 ++ (decRun (decStep st b).1 rest).2) := rfl

theorem decRun_append (st : DecoderState) (a b : List Nat) :
    decRun st (a ++ b) =
      ((decRun (decRun st a).1 b).1,
        (decRun st a).2 ++ (decRun (decRun st a).1 b).2) := by
  induction a generalizing st with
  | nil => rw [decRun_nil]; simp
  | cons x a ih =>
    rw [List.cons_append, decRun_cons, ih, decRun_cons]
    simp [List.append_assoc]

theorem decStep_done (u : Utf8State) (b : Nat) :
    decStep ⟨BomPhase.done, u⟩ b =
      (⟨BomPhase.done, (utf8Step u b).1⟩, (utf8Step u b).2) := rfl

theorem decStep_b0_eq (u : Utf8State) (b : Nat) :
    decStep ⟨BomPhase.b0, u⟩ b =
      if b = 0xEF then (⟨BomPhase.b1, u⟩, ([] : List Char))
      else (⟨BomPhase.done, (utf8Step u b).1⟩, (utf8Step u b).2) := rfl

theorem decStep_b1_eq (u : Utf8State) (b : Nat) :
    decStep ⟨BomPhase.b1, u⟩ b =
      if b = 0xBB then (⟨BomPhase.b2, u⟩, ([] : List Char))
      else (⟨BomPhase.done, (utf8Step (utf8Step u 0xEF).1 b).1⟩,
        (utf8Step u 0xEF).2 ++ (utf8Step (utf8Step u 0xEF).1 b).2) := rfl

theorem decStep_b2_eq (u : Utf8State) (b : Nat) :
    decStep ⟨BomPhase.b2, u⟩ b =
      if b = 0xBF then (⟨BomPhase.done, u⟩, ([] : List Char))
      else
        (⟨BomPhase.done,
            (utf8Step (utf8Step (utf8Step u 0xEF).1 0xBB).1 b).1⟩,
          (utf8Step u 0xEF).2 ++ ((utf8Step (utf8Step u 0xEF).1 0xBB).2 ++
            (utf8Step (utf8Step (utf8Step u 0xEF).1 0xBB).1 b).2)) := rfl

theorem decRun_done (u : Utf8State) (bs : List Nat) :
    decRun ⟨BomPhase.done, u⟩ bs =
      (⟨BomPhase.done, (utf8Run u bs).1⟩, (utf8Run u bs).2) := by
  induction bs generalizing u with
  | nil => rfl
  | cons b bs ih =>
    rw [decRun_cons, decStep_done, ih, utf8Run_cons]

/-- A stream that starts with the three BOM bytes is decoded as the
remainder: the BOM is swallowed. -/
theorem decRun_bom (rest : List Nat) :
    (decRun decInit (0xEF :: 0xBB :: 0xBF :: rest)).2 = (utf8Run utf8Init rest).2 := by
  rw [decRun_cons]
  rw [show decStep decInit 0xEF = (⟨BomPhase.b1, utf8Init⟩, []) by
    rw [decInit, decStep_b0_eq, if_pos rfl]]
  rw [decRun_cons]
  rw [show decStep ⟨BomPhase.b1, utf8Init⟩ 0xBB = (⟨BomPhase.b2, utf8Init⟩, []) by
    rw [decStep_b1_eq, if_pos rfl]]
  rw [decRun_cons]
  rw [show decStep ⟨BomPhase.b2, utf8Init⟩ 0xBF = (⟨BomPhase.done, utf8Init⟩, []) by
    rw [decStep_b2_eq, if_pos rfl]]
  rw [decRun_done]
  simp

/-- A stream that does not start with the full BOM decodes exactly as
the plain UTF-8 machine: the withheld prefix bytes are replayed. -/
theorem decRun_no_bom (bs : List Nat) (hno : ∀ r, bs ≠ 0xEF :: 0xBB :: 0xBF :: r) :
    (decRun decInit bs).2 = (utf8Run utf8Init bs).2 := by
  cases bs with
  | nil => rfl
  | cons b rest =>
    by_cases hb : b = 0xEF
    · subst hb
      cases rest with
      | nil => decide
      | cons b2 rest2 =>
        by_cases hb2 : b2 = 0xBB
        · subst hb2
          cases rest2 with
          | nil => decide
          | cons b3 rest3 =>
            by_cases hb3 : b3 = 0xBF
            · subst hb3
              exact absurd rfl (hno rest3)
            · rw [decRun_cons]
              rw [show decStep decInit 0xEF = (⟨BomPhase.b1, utf8Init⟩, []) by
                rw [decInit, decStep_b0_eq, if_pos rfl]]
              rw [decRun_cons]
              rw [show decStep ⟨BomPhase.b1, utf8Init⟩ 0xBB = (⟨BomPhase.b2, utf8Init⟩, []) by
                rw [decStep_b1_eq, if_pos rfl]]
              rw [decRun_cons, decStep_b2_eq, if_neg hb3, decRun_done]
              rw [utf8Run_cons, utf8Run_cons, utf8Run_cons]
              simp [List.append_assoc]
        · rw [decRun_cons]
          rw [show decStep decInit 0xEF = (⟨BomPhase.b1, utf8Init⟩, []) by
            rw [decInit, decStep_b0_eq, if_pos rfl]]
          rw [decRun_cons, decStep_b1_eq, if_neg hb2, decRun_done]
          rw [utf8Run_cons, utf8Run_cons]
          simp [List.append_assoc]
    · rw [decRun_cons, decInit, decStep_b0_eq, if_neg hb, decRun_done]
      rw [utf8Run_cons]

/-- The encoding of a string not starting with the BOM character never
starts with the BOM bytes. -/
theorem encode_no_bom {c : Char} (r : List Char) (hc : c ≠ Char.ofNat 0xFEFF) :
    ∀ w, utf8EncodeChar c ++ utf8Encode r ≠ 0xEF :: 0xBB :: 0xBF :: w := by
  intro w hcontra
  have hofn := Char.ofNat_toNat c
  rw [utf8EncodeChar] at hcontra
  by_cases h1 : c.toNat < 0x80
  · rw [if_pos h1] at hcontra
    simp at hcontra
    omega
  · rw [if_neg h1] at hcontra
    by_cases h2 : c.toNat < 0x800
    · rw [if_pos h2] at hcontra
      simp at hcontra
      omega
    · rw [if_neg h2] at hcontra
      by_cases h3 : c.toNat < 0x10000
      · rw [if_pos h3] at hcontra
        simp at hcontra
        have hn : c.toNat = 0xFEFF := by omega
        exact hc (by rw [← hofn, hn])
      · rw [if_neg h3] at hcontra
        simp at hcontra
        omega

/-- The decoder undoes the encoding up to default BOM removal,
independently of the split into chunks (applied here to the whole
stream at once). -/
theorem decRun_encode (s : List Char) :
    (decRun decInit (utf8Encode s)).2 = stripBom s := by
  cases s with
  | nil => rfl
  | cons c r =>
    have hsplit : utf8Encode (c :: r) = utf8EncodeChar c ++ utf8Encode r := by
      rw [utf8Encode, List.map_cons, List.flatten_cons]
      rfl
    by_cases hc : c = Char.ofNat 0xFEFF
    · subst hc
      have hbytes : utf8EncodeChar (Char.ofNat 0xFEFF) = [0xEF, 0xBB, 0xBF] := by decide
      rw [hsplit, hbytes, show ([0xEF, 0xBB, 0xBF] : List Nat) ++ utf8Encode r =
        0xEF :: 0xBB :: 0xBF :: utf8Encode r from rfl, decRun_bom, utf8Run_encode r,
        stripBom, if_pos rfl]
    · rw [hsplit, decRun_no_bom _ (encode_no_bom r hc), ← hsplit, utf8Run_encode,
        stripBom, if_neg hc]

/-! Invariant of the byte-level loop -/

theorem byteStep_fields (st : ByteStreamState) (ck : List Nat) :
    (byteStep st ck).dec = (decRun st.dec ck).1 ∧
    (byteStep st ck).text = streamStep st.text (decRun st.dec ck).2 := ⟨rfl, rfl⟩

theorem runByteChunks_aux (cs : List (List Nat)) :
    ∀ st : ByteStreamState, st.text.fullText = extractText st.text.buffer →
      (cs.foldl byteStep st).dec = (decRun st.dec cs.flatten).1 ∧
      (cs.foldl byteStep st).text.buffer = st.text.buffer ++ (decRun st.dec cs.flatten).2 ∧
      (cs.foldl byteStep st).text.fullText =
        extractText (st.text.buffer ++ (decRun st.dec cs.flatten).2) := by
  induction cs with
  | nil =>
    intro st h
    refine ⟨?_, ?_, ?_⟩
    · rw [List.flatten_nil, decRun_nil]
      rfl
    · rw [List.flatten_nil, decRun_nil]
      simp
    · rw [List.flatten_nil, decRun_nil]
      simpa using h
  | cons ck cs ih =>
    intro st h
    rw [List.foldl_cons]
    have hfull := streamStep_fullText st.text (decRun st.dec ck).2 h
    have hinv : (byteStep st ck).text.fullText = extractText (byteStep st ck).text.buffer := by
      rw [(byteStep_fields st ck).2, streamStep_buffer]
      exact hfull
    obtain ⟨h1, h2, h3⟩ := ih (byteStep st ck) hinv
    have hflat : (ck :: cs).flatten = ck ++ cs.flatten := rfl
    have happ := decRun_append st.dec ck cs.flatten
    refine ⟨?_, ?_, ?_⟩
    · rw [h1, (byteStep_fields st ck).1, hflat, happ]
    · rw [h2, (byteStep_fields st ck).1, (byteStep_fields st ck).2, streamStep_buffer,
        hflat, happ]
      simp [List.append_assoc]
    · rw [h3, (byteStep_fields st ck).1, (byteStep_fields st ck).2, streamStep_buffer,
        hflat, happ]
      simp [List.append_assoc]

/-- The final text of the byte-level loop depends only on the
concatenation of the byte chunks. -/
theorem byteStreamFinal_eq (cs : List (List Nat)) :
    byteStreamFinal cs = extractText ((decRun decInit cs.flatten).2) := by
  have h := (runByteChunks_aux cs byteStreamInit rfl).2.2
  rw [byteStreamFinal, runByteChunks]
  simpa using h

/-! Lemmas about the bulk pipeline -/

theorem executeBulkParallel_spec {α : Type} (tasks : List (Except Unit (Option α)))
    (c : Nat) :
    executeBulkParallel tasks c =
      tasks.filterMap (fun t =>
        match t with
        | Except.ok (some v) => some v
        | _ => none) := by
  induction tasks with
  | nil => rfl
  | cons t tasks ih =>
    rw [executeBulkParallel] at ih ⊢
    cases t with
    | error e => simpa using ih
    | ok v =>
      cases v with
      | none => simpa using ih
      | some x => simpa using ih

theorem executeBulkParallel_drop_failed {α : Type} (tasks : List (Except Unit (Option α)))
    (c : Nat) :
    executeBulkParallel tasks c =
      executeBulkParallel (tasks.filter taskOk) c := by
  induction tasks with
  | nil => rfl
  | cons t tasks ih =>
    cases t with
    | error e => simpa [taskOk, executeBulkParallel] using ih
    | ok v =>
      cases v with
      | none => simpa [taskOk, executeBulkParallel] using ih
      | some x => simpa [taskOk, executeBulkParallel] using ih

theorem executeBulkParallel_all_failed {α : Type} (tasks : List (Except Unit (Option α)))
    (c : Nat) (h : ∀ t ∈ tasks, taskOk t = false) :
    executeBulkParallel tasks c = [] := by
  induction tasks with
  | nil => rfl
  | cons t tasks ih =>
    have ht := h t (by simp)
    cases t with
    | error e =>
      rw [executeBulkParallel] at ih ⊢
      simpa using ih (fun x hx => h x (by simp [hx]))
    | ok v => simp [taskOk] at ht

/-! Lemmas about the dedup walk -/

theorem dedupStep_keepFirst (items : List MCQ) :
    ∀ seen : List (Option (List Char)),
      dedupStep seen items =
        keepFirst (items.filter (fun q => decide (q.question ∉ seen))) := by
  induction items with
  | nil =>
    intro seen
    rw [List.filter_nil, keepFirst]
    rfl
  | cons q rest ih =>
    intro seen
    rw [dedupStep, List.filter_cons]
    by_cases hq : q.question ∈ seen
    · rw [if_pos hq, if_neg (by simp [hq])]
      rw [ih (q.question :: seen)]
      congr 1
      apply List.filter_congr
      intro x hx
      apply decide_eq_decide.mpr
      constructor
      · intro h hm
        exact h (List.mem_cons.mpr (Or.inr hm))
      · intro h hc
        cases List.mem_cons.mp hc with
        | inl he => exact h (he ▸ hq)
        | inr hm => exact h hm
    · rw [if_neg hq, if_pos (by simp [hq])]
      rw [keepFirst, ih (q.question :: seen)]
      congr 1
      have hff : ∀ l : List MCQ,
          (l.filter (fun x => decide (x.question ∉ seen))).filter
            (fun r => decide (r.question ≠ q.question)) =
          l.filter (fun x => decide (x.question ∉ q.question :: seen)) := by
        intro l
        induction l with
        | nil => rfl
        | cons a l ihl =>
          rw [List.filter_cons, List.filter_cons]
          by_cases ha : a.question ∈ seen
          · rw [if_neg (by simp [ha]), if_neg (by simp [ha]), ihl]
          · rw [if_pos (by simp [ha]), List.filter_cons]
            by_cases haq : a.question = q.question
            · rw [if_neg (by simp [haq]), if_neg (by simp [haq, ha]), ihl]
            · rw [if_pos (by simp [haq]), if_pos (by simp [haq, ha]), ihl]
      rw [hff rest]

theorem dedupMCQs_keepFirst (items : List MCQ) :
    dedupMCQs items = keepFirst items := by
  rw [dedupMCQs, dedupStep_keepFirst items []]
  congr 1
  apply List.filter_eq_self.mpr
  intro a ha
  simp

/-- At most one keyless item survives the walk: all keyless items share
the dedup key undefined, so only the first of them is kept.  Stated
over an arbitrary seen set. -/
theorem dedupStep_keyless (items : List MCQ) :
    ∀ seen : List (Option (List Char)),
      (dedupStep seen items).filter (fun q => decide (q.question = none)) =
        if none ∈ seen then []
        else (items.filter (fun q => decide (q.question = none))).take 1 := by
  induction items with
  | nil =>
    intro seen
    by_cases h : (none : Option (List Char)) ∈ seen
    · rw [if_pos h]; rfl
    · rw [if_neg h]; rfl
  | cons q rest ih =>
    intro seen
    rw [dedupStep]
    by_cases hq : q.question = none
    · by_cases hseen : (none : Option (List Char)) ∈ seen
      · rw [if_pos (by rw [hq]; exact hseen), ih (q.question :: seen),
          if_pos (by simp [hq]), if_pos hseen]
      · rw [if_neg (by rw [hq]; exact hseen), if_neg hseen]
        simp only [List.filter_cons]
        rw [if_pos (by simp [hq]), if_pos (by simp [hq]),
          ih (q.question :: seen), if_pos (by simp [hq])]
        simp
    · by_cases hseenq : q.question ∈ seen
      · rw [if_pos hseenq, ih (q.question :: seen)]
        by_cases hseen : (none : Option (List Char)) ∈ seen
        · rw [if_pos (by simp [hseen]), if_pos hseen]
        · rw [if_neg (by simp [hseen, eq_comm, hq]), if_neg hseen]
          simp only [List.filter_cons]
          rw [if_neg (by simp [hq])]
      · rw [if_neg hseenq]
        simp only [List.filter_cons]
        rw [if_neg (by simp [hq]), ih (q.question :: seen)]
        by_cases hseen : (none : Option (List Char)) ∈ seen
        · rw [if_pos (by simp [hseen]), if_pos hseen]
        · rw [if_neg (by simp [hseen, eq_comm, hq]), if_neg hseen,
            if_neg (by simp [hq])]

/-! Lemmas about the start/settle trace -/

theorem foldl_max_le {f : Nat → Nat} {B : Nat} (l : List Nat) (a : Nat)
    (ha : a ≤ B) (h : ∀ k ∈ l, f k ≤ B) :
    l.foldl (fun m k => max m (f k)) a ≤ B := by
  induction l generalizing a with
  | nil => exact ha
  | cons x l ih =>
    rw [List.foldl_cons]
    exact ih _ (max_le ha (h x (by simp))) (fun k hk => h k (by simp [hk]))

theorem foldl_max_init {f : Nat → Nat} (l : List Nat) (a : Nat) :
    a ≤ l.foldl (fun m k => max m (f k)) a := by
  induction l generalizing a with
  | nil => exact le_refl a
  | cons x l ih =>
    rw [List.foldl_cons]
    exact le_trans (le_max_left a (f x)) (ih (max a (f x)))

theorem foldl_max_ge {f : Nat → Nat} (l : List Nat) (a : Nat) {k : Nat} (hk : k ∈ l) :
    f k ≤ l.foldl (fun m k => max m (f k)) a := by
  induction l generalizing a with
  | nil => cases hk
  | cons x l ih =>
    rw [List.foldl_cons]
    rcases List.mem_cons.mp hk with he | hm
    · subst he
      exact le_trans (le_max_right a (f k)) (foldl_max_init l (max a (f k)))
    · exact ih (max a (f x)) hm

theorem bulkTrace_countP_start (n : Nat) (so : List Nat) :
    (bulkTrace n so).countP isStart = n := by
  rw [bulkTrace, List.countP_append, List.countP_map, List.countP_map]
  simp [Function.comp_def, isStart]

theorem inFlight_take_le (n : Nat) (so : List Nat) (k : Nat) :
    inFlight ((bulkTrace n so).take k) ≤ n := by
  rw [inFlight]
  have h1 : ((bulkTrace n so).take k).countP isStart ≤ (bulkTrace n so).countP isStart :=
    (List.take_sublist k (bulkTrace n so)).countP_le isStart
  rw [bulkTrace_countP_start] at h1
  omega

theorem inFlight_take_n (n : Nat) (so : List Nat) :
    inFlight ((bulkTrace n so).take n) = n := by
  have h1 : (bulkTrace n so).take n = (List.range n).map BulkEvent.start := by
    rw [bulkTrace, List.take_append_of_le_length (by simp),
      List.take_of_length_le (by simp)]
  rw [h1, inFlight, List.countP_map, List.countP_map]
  simp [Function.comp_def, isStart]

/-- With n tasks, the trace reaches exactly n simultaneously
outstanding requests: all of them are in flight once the synchronous
start loop finishes, whatever the settlement order. -/
theorem maxInFlight_bulkTrace (n : Nat) (so : List Nat) :
    maxInFlight (bulkTrace n so) = n := by
  apply le_antisymm
  · exact foldl_max_le _ 0 (by omega) (fun k _ => inFlight_take_le n so k)
  · have hn : n ∈ List.range ((bulkTrace n so).length + 1) := by
      rw [List.mem_range, bulkTrace]
      simp
      omega
    have h1 := foldl_max_ge (f := fun k => inFlight ((bulkTrace n so).take k))
      (List.range ((bulkTrace n so).length + 1)) 0 hn
    have h2 : inFlight ((bulkTrace n so).take n) ≤ maxInFlight (bulkTrace n so) := by
      rw [maxInFlight]
      exact h1
    rw [inFlight_take_n n so] at h2
    exact h2

/-! Lemmas about the non-streaming extraction -/

theorem extractCandidateText_error {data : JsVal}
    (h : candidatePath data = Except.error ()) :
    extractCandidateText data = JsVal.str [] := by
  rw [extractCandidateText, h]

theorem extractCandidateText_ok {data v : JsVal} (h : candidatePath data = Except.ok v) :
    extractCandidateText data = v := by
  rw [extractCandidateText, h]

theorem lookupField_missing {fields : List (List Char × JsVal)} {key : List Char}
    (h : ∀ kv ∈ fields, kv.1 ≠ key) :
    lookupField fields key = JsVal.undef := by
  induction fields with
  | nil => rfl
  | cons kv rest ih =>
    rw [lookupField, if_neg (h kv (by simp))]
    exact ih (fun x hx => h x (by simp [hx]))

theorem jsGet_obj_missing {fields : List (List Char × JsVal)} {key : List Char}
    (h : ∀ kv ∈ fields, kv.1 ≠ key) :
    jsGet (JsVal.obj fields) key = Except.ok JsVal.undef := by
  rw [jsGet, lookupField_missing h]

/-! The claims -/

/-- Claim C1: for every well-formed complete stream (a regular JSON
array of objects each with a text field) delivered to the streaming
path of callGeminiApi, the final accumulated text returned at
end-of-stream equals the concatenation of all text field values in
document order, with each captured value unescaped as a JSON string
literal and any match that fails to parse skipped silently. -/
theorem c1_wellformed_stream_concat (es : List (List Char)) (cs : List (List Nat))
    (hok : ∀ e ∈ es, escapedOk e = true)
    (hjoin : cs.flatten = utf8Encode (serializeStream es)) :
    byteStreamFinal cs = (es.filterMap unescape).flatten := by
  rw [byteStreamFinal_eq, hjoin, decRun_encode]
  have hsb : stripBom (serializeStream es) = serializeStream es := by
    rw [serializeStream, stripBom, if_neg (by decide)]
  rw [hsb, extractText, extract_serialize hok]

theorem c1_wellformed_stream_concat_witness :
    byteStreamFinal [utf8Encode (serializeStream c1Demo)] =
      (c1Demo.filterMap unescape).flatten :=
  c1_wellformed_stream_concat c1Demo [utf8Encode (serializeStream c1Demo)]
    (by decide) (by simp)

theorem mergeBulkMCQs_eq (results : List (List MCQ)) (N : Nat) :
    mergeBulkMCQs results N =
      if (dedupMCQs results.flatten).length > N then (dedupMCQs results.flatten).take N
      else dedupMCQs results.flatten := rfl

/-- Claim C2: for every bulk MCQ generation run, the returned item
sequence equals the first-N truncation of the first-occurrence-wins
deduplication (keyed by the question text) of the merged sub-batch
results, preserving merged order; the final count is at most the
requested count, and a deduplicated sequence shorter than N is
returned as-is without error. -/
theorem c2_bulk_dedup_truncate (results : List (List MCQ)) (N : Nat) :
    mergeBulkMCQs results N = (keepFirst results.flatten).take N ∧
    (mergeBulkMCQs results N).length ≤ N ∧
    ((dedupMCQs results.flatten).length ≤ N →
      mergeBulkMCQs results N = dedupMCQs results.flatten) := by
  refine ⟨?_, ?_, ?_⟩
  · rw [mergeBulkMCQs_eq, ← dedupMCQs_keepFirst]
    by_cases h : (dedupMCQs results.flatten).length > N
    · rw [if_pos h]
    · rw [if_neg h, List.take_of_length_le (by omega)]
  · rw [mergeBulkMCQs_eq]
    by_cases h : (dedupMCQs results.flatten).length > N
    · rw [if_pos h]
      simp [List.length_take]
    · rw [if_neg h]
      omega
  · intro h
    rw [mergeBulkMCQs_eq, if_neg (by omega)]

theorem c2_bulk_dedup_truncate_witness :
    mergeBulkMCQs c2Demo 5 = (keepFirst c2Demo.flatten).take 5 ∧
    mergeBulkMCQs c2Demo 5 = dedupMCQs c2Demo.flatten :=
  ⟨(c2_bulk_dedup_truncate c2Demo 5).1,
    (c2_bulk_dedup_truncate c2Demo 5).2.2 (by decide)⟩

/-- Claim C3 counterexample: with a concurrency ceiling of 2 and five
sub-batch tasks, the orchestrator trace reaches five simultaneously
outstanding requests, so the ceiling is not respected. -/
theorem c3_counterexample :
    maxInFlight (bulkTrace 5 [0, 1, 2, 3, 4]) = 5 ∧
    ¬(maxInFlight (bulkTrace 5 [0, 1, 2, 3, 4]) ≤ 2) := by
  constructor
  · decide
  · decide

/-- Claim C3 amended: the concurrency argument is never consulted;
every sub-batch task is started by the synchronous map before any
response can arrive, so the maximum number of simultaneously in-flight
requests equals the total number of tasks, whatever the settlement
order. -/
theorem c3_no_ceiling (n : Nat) (settleOrder : List Nat) :
    maxInFlight (bulkTrace n settleOrder) = n :=
  maxInFlight_bulkTrace n settleOrder

/-- Claim C4: a failing sub-batch task contributes exactly zero items
to the merged result — removing the failed tasks does not change the
output, so failures are swallowed and sibling tasks unaffected — and
even when all sub-batches fail the orchestrator returns the empty
sequence rather than an error. -/
theorem c4_failures_swallowed (α : Type) (tasks : List (Except Unit (Option α)))
    (c : Nat) :
    executeBulkParallel tasks c = executeBulkParallel (tasks.filter taskOk) c ∧
    ((∀ t ∈ tasks, taskOk t = false) → executeBulkParallel tasks c = []) :=
  ⟨executeBulkParallel_drop_failed tasks c, executeBulkParallel_all_failed tasks c⟩

theorem c4_failures_swallowed_witness :
    executeBulkParallel c4Demo 20 = executeBulkParallel (c4Demo.filter taskOk) 20 ∧
    executeBulkParallel c4DemoAllFail 20 = [] :=
  ⟨(c4_failures_swallowed Nat c4Demo 20).1,
    (c4_failures_swallowed Nat c4DemoAllFail 20).2 (by decide)⟩

/-- Claim C5: over the life of one stream, the accumulated texts
handed to successive onChunk invocations have strictly increasing
lengths (so the accumulated length never shrinks), and an invocation
occurs only when the fresh candidate is strictly longer than the
previously emitted text; moreover the accumulated text length never
decreases when a further chunk arrives. -/
theorem c5_emissions_monotone (cs : List (List Char)) :
    List.Chain' (fun a b : List Char => a.length < b.length) (runChunks cs).emissions ∧
    ∀ c : List Char,
      (runChunks cs).fullText.length ≤ (runChunks (cs ++ [c])).fullText.length := by
  constructor
  · exact (runChunks_emissionInv cs).1
  · intro c
    have h1 : (runChunks cs).fullText = extractText cs.flatten := streamFinal_eq_extract cs
    have h2 : (runChunks (cs ++ [c])).fullText = extractText ((cs ++ [c]).flatten) :=
      streamFinal_eq_extract (cs ++ [c])
    have h3 : (cs ++ [c]).flatten = cs.flatten ++ c := by simp
    obtain ⟨d, hd⟩ := extractText_append cs.flatten c
    rw [h1, h2, h3, hd]
    simp

/-- Claim C6: for the streamed chunk sequence that splits the array
mid-string — first chunk open-bracket open-brace quote text quote
colon quote H e l, second chunk l o quote close-brace close-bracket —
the final decoded text is Hello. -/
theorem c6_split_mid_string :
    streamFinal [c6chunk1, c6chunk2] = ['H', 'e', 'l', 'l', 'o'] := by decide

/-- Claim C7: the final accumulated text depends only on the
underlying byte sequence, not on where the stream is split into
chunks — including splits inside a multi-byte UTF-8 character, whose
incomplete byte prefix is carried over between chunks; on any chunking
of the encoding of a text, the decoded stream reproduces that text
exactly (up to the decoder swallowing a leading byte-order mark), so
characters are neither corrupted nor dropped. -/
theorem c7_chunking_invariance :
    (∀ cs₁ cs₂ : List (List Nat), cs₁.flatten = cs₂.flatten →
        byteStreamFinal cs₁ = byteStreamFinal cs₂) ∧
    (∀ (s : List Char) (cs : List (List Nat)), cs.flatten = utf8Encode s →
        byteStreamFinal cs = streamFinal [stripBom s]) := by
  constructor
  · intro cs₁ cs₂ h
    rw [byteStreamFinal_eq, byteStreamFinal_eq, h]
  · intro s cs h
    rw [byteStreamFinal_eq, h, decRun_encode, streamFinal_eq_extract]
    simp

theorem c7_chunking_invariance_witness :
    byteStreamFinal [[0x41, 0xC3], [0xA9]] = byteStreamFinal [[0x41], [0xC3, 0xA9]] ∧
    byteStreamFinal [[0x41, 0xC3], [0xA9]] =
      streamFinal [stripBom [Char.ofNat 0x41, Char.ofNat 0xE9]] :=
  ⟨c7_chunking_invariance.1 [[0x41, 0xC3], [0xA9]] [[0x41], [0xC3, 0xA9]] (by decide),
    c7_chunking_invariance.2 [Char.ofNat 0x41, Char.ofNat 0xE9]
      [[0x41, 0xC3], [0xA9]] (by decide)⟩

/-- Claim C8 counterexample: a response whose candidates, content and
parts are all present but whose first part lacks the text field makes
the non-streaming branch return undefined, not the empty string, so
the claim that every absent nested field yields an empty string is
false. -/
theorem c8_counterexample :
    extractCandidateText c8Data = JsVal.undef ∧ JsVal.undef ≠ JsVal.str [] := by
  constructor
  · rfl
  · intro h
    exact JsVal.noConfusion h

/-- Claim C8 amended: the non-streaming branch parses the document and
walks candidates index 0, content, parts, index 0, text; it never
throws to the caller: when the walk dies on an absent intermediate
value (property access on undefined or null) the catch returns the
empty string, and otherwise the caller receives exactly the final
property value — which is undefined, not the empty string, when only
the text field itself is absent from an otherwise complete shape. -/
theorem c8_missing_fields (data : JsVal) :
    (∀ e : Unit, candidatePath data = Except.error e →
      extractCandidateText data = JsVal.str []) ∧
    (∀ v, candidatePath data = Except.ok v → extractCandidateText data = v) ∧
    (∀ fields : List (List Char × JsVal), (∀ kv ∈ fields, kv.1 ≠ keyText) →
      jsGet (JsVal.obj fields) keyText = Except.ok JsVal.undef) := by
  refine ⟨?_, ?_, ?_⟩
  · intro e h
    cases e
    exact extractCandidateText_error h
  · intro v h
    exact extractCandidateText_ok h
  · intro fields h
    exact jsGet_obj_missing h

theorem c8_missing_fields_witness :
    extractCandidateText (JsVal.obj []) = JsVal.str [] ∧
    extractCandidateText c8Data = JsVal.undef ∧
    jsGet (JsVal.obj []) keyText = Except.ok JsVal.undef :=
  ⟨(c8_missing_fields (JsVal.obj [])).1 () rfl,
    (c8_missing_fields c8Data).2.1 JsVal.undef rfl,
    (c8_missing_fields (JsVal.obj [])).2.2 [] (by simp)⟩

/-- Claim C9 counterexample: a task that succeeds with the value null
is filtered out of the result exactly like a failure, so the returned
sequence is not the results of all successful tasks: one task succeeds
yet the result is empty. -/
theorem c9_counterexample :
    executeBulkParallel [Except.ok (none : Option Nat)] 20 = [] ∧
    ([Except.ok (none : Option Nat)].countP taskOk) = 1 := by
  constructor
  · rfl
  · decide

/-- Claim C9 amended: executeBulkParallel returns exactly the non-null
results of the successful tasks in task-submission order — each failing
task is mapped to null and filtered out, and a successful null is
dropped by the same filter — and the returned sequence is independent
of the concurrency argument, which is never consulted. -/
theorem c9_successes_in_order (α : Type) (tasks : List (Except Unit (Option α)))
    (c c2 : Nat) :
    executeBulkParallel tasks c =
      tasks.filterMap (fun t =>
        match t with
        | Except.ok (some v) => some v
        | _ => none) ∧
    executeBulkParallel tasks c = executeBulkParallel tasks c2 :=
  ⟨executeBulkParallel_spec tasks c, rfl⟩

/-- Claim C10: in the bulk MCQ deduplication, every item lacking a
question field shares the single dedup key undefined, so at most one
keyless item — the first one in merged order — survives, and all later
keyless items are dropped. -/
theorem c10_keyless_collapse (items : List MCQ) :
    (dedupMCQs items).filter (fun q => decide (q.question = none)) =
      (items.filter (fun q => decide (q.question = none))).take 1 ∧
    (dedupMCQs items).countP (fun q => decide (q.question = none)) ≤ 1 := by
  have h := dedupStep_keyless items []
  rw [if_neg (by simp)] at h
  constructor
  · exact h
  · rw [List.countP_eq_length_filter, dedupMCQs, h]
    simp [List.length_take]

end GeminiSpec
